import Mathlib

/-!
# Verification of the CT lung-segmentation program

A shallow embedding of `src/main.py` (the `lungDetection` function and its
module-level configuration) together with proofs of the specification's
claims about it.

The program:
1. loads a 2-D CT slice and normalizes raw intensities into the 8-bit range;
2. classifies each pixel as air/tissue by a threshold, with a row-local
   gap-fill that bridges short tissue runs between nearby air pixels;
3. per row, collects label-change edges, drops a trailing "fake" edge whose
   column holds tissue, and floods everything outside the first/last edge
   with the non-body label;
4. counts remaining air pixels, recolors them as lung, and converts the
   count to a physical area via the in-plane voxel spacings.

Raw intensities are modelled as rationals (the Python code works on float64;
the arithmetic performed is exact in the cases of interest), the normalized
image as naturals, grids as lists of rows.
-/

/-- The four category labels of the classified image.  The Python code
represents them by the four BGR color triples of class `colors`; the label
type is the faithful abstraction because the four triples are pairwise
distinct (proved below) and every write/comparison in the source is against
one of these four constants. -/
inductive Label
  | Air
  | Tissue
  | NonBody
  | Lung
  deriving DecidableEq, Repr

open Label

/-- `colors.air` from the source: BGR triple `(0, 0, 255)`. -/
def colors_air : ℕ × ℕ × ℕ := (0, 0, 255)

/-- `colors.tissue` from the source: BGR triple `(80, 80, 200)`. -/
def colors_tissue : ℕ × ℕ × ℕ := (80, 80, 200)

/-- `colors.non_body` from the source: BGR triple `(60, 60, 60)`. -/
def colors_non_body : ℕ × ℕ × ℕ := (60, 60, 60)

/-- `colors.lungs` from the source: BGR triple `(240, 160, 160)`. -/
def colors_lungs : ℕ × ℕ × ℕ := (240, 160, 160)

/-- The color actually stored in the image for each label. -/
def labelColor : Label → ℕ × ℕ × ℕ
  | Air => colors_air
  | Tissue => colors_tissue
  | NonBody => colors_non_body
  | Lung => colors_lungs

/-- `image[y, last[0]+i] = colors.air for i in range(1, x-last[0])`:
relabel to `Air` exactly the columns `c` with `a < c < b` of the row prefix
`acc` (the columns strictly between the previous air pixel `a` and the
current pixel `b`).  The first argument of the recursion is the absolute
column index of the head of the remaining list. -/
def fillAir (a b : ℕ) : ℕ → List Label → List Label
  | _, [] => []
  | i, c :: r => (if a < i ∧ i < b then Label.Air else c) :: fillAir a b (i + 1) r

/-- One row of the classification pass (source lines 87–107), processing the
remaining pixels `s` of row `y` starting at absolute column `x`, with `last`
the coordinates `(x, y)` of the most recently seen air pixel (initially
`(0, 0)`, a module-level initialization shared across rows) and `acc` the
labels already assigned to columns `0 .. x-1`.  A below-threshold pixel is
labelled `Air`; if additionally the current row equals `last`'s row and the
column distance is under `J` (= `jump_size`), the columns strictly between
are retroactively relabelled `Air`; `last` is then updated to the current
pixel.  An above-threshold pixel is labelled `Tissue`.  Returns the row's
labels and the final `last`. -/
def classifyRowAux (J y : ℕ) : List Bool → ℕ → ℕ × ℕ → List Label →
    List Label × ℕ × ℕ
  | [], _, last, acc => (acc, last)
  | b :: s, x, last, acc =>
    if b then
      let acc1 := if y = last.2 ∧ (x : ℤ) - (last.1 : ℤ) < (J : ℤ) then
        fillAir last.1 x 0 acc else acc
      classifyRowAux J y s (x + 1) (x, y) (acc1 ++ [Label.Air])
    else
      classifyRowAux J y s (x + 1) last (acc ++ [Label.Tissue])

/-- All rows of the classification pass, threading the `last` marker across
rows exactly as the source does (the marker survives row changes; the
same-row test `y == last[1]` is what prevents cross-row fills). -/
def classifyRowsAux (J : ℕ) : List (List Bool) → ℕ → ℕ × ℕ → List (List Label)
  | [], _, _ => []
  | r :: rs, y, last =>
    let p := classifyRowAux J y r 0 last []
    p.1 :: classifyRowsAux J rs (y + 1) p.2

/-- The classification pass on the whole below-threshold grid, started at
row 0 with `last = (0, 0)` as in the source. -/
def classify (J : ℕ) (P : List (List Bool)) : List (List Label) :=
  classifyRowsAux J P 0 (0, 0)

/-- The gap-fill events of one row of the classification pass: the same
traversal as `classifyRowAux`, recording a triple `(y, a, x)` whenever the
fill branch executes with a nonempty range (`a + 1 < x`), i.e. whenever at
least one pixel is retroactively relabelled.  Returns the events and the
final `last`. -/
def classifyRowEv (J y : ℕ) : List Bool → ℕ → ℕ × ℕ → List (ℕ × ℕ × ℕ) →
    List (ℕ × ℕ × ℕ) × ℕ × ℕ
  | [], _, last, evs => (evs, last)
  | b :: s, x, last, evs =>
    if b then
      let evs1 := if (y = last.2 ∧ (x : ℤ) - (last.1 : ℤ) < (J : ℤ)) ∧
          last.1 + 1 < x then evs ++ [(y, last.1, x)] else evs
      classifyRowEv J y s (x + 1) (x, y) evs1
    else
      classifyRowEv J y s (x + 1) last evs

/-- Gap-fill events of the whole classification pass. -/
def classifyEvAux (J : ℕ) : List (List Bool) → ℕ → ℕ × ℕ → List (ℕ × ℕ × ℕ) →
    List (ℕ × ℕ × ℕ)
  | [], _, _, evs => evs
  | r :: rs, y, last, evs =>
    let p := classifyRowEv J y r 0 last evs
    classifyEvAux J rs (y + 1) p.2 p.1

/-- Gap-fill events of `classify J P`. -/
def classifyEvents (J : ℕ) (P : List (List Bool)) : List (ℕ × ℕ × ℕ) :=
  classifyEvAux J P 0 (0, 0) []

/-- Edge collection (source lines 128–132): column indices `x ≥ 1` at which
the label differs from the label at `x - 1`; `prev` is the label at the
previous column. -/
def rowEdgesAux : ℕ → Label → List Label → List ℕ
  | _, _, [] => []
  | x, prev, c :: r => (if c ≠ prev then [x] else []) ++ rowEdgesAux (x + 1) c r

/-- The Row Edge List of a row; column 0 is never an edge. -/
def rowEdges : List Label → List ℕ
  | [] => []
  | c :: r => rowEdgesAux 1 c r

/-- Fake-edge removal (source lines 137–138): if the row's last edge sits on
a column whose label is `Tissue`, drop that edge.  (The `getD` default is
irrelevant: edges always index into the row.) -/
def dropFakeEdge (row : List Label) (es : List ℕ) : List ℕ :=
  match es.getLast? with
  | some e => if row.getD e Label.Air = Label.Tissue then es.dropLast else es
  | none => es

/-- The toggle-fill sweep (source lines 141–154) for a nonempty edge list
with first edge `e0` and last edge `el`: at each column, reaching `e0` turns
filling off, reaching `el` turns it back on (both checks at the same column
when `e0 = el`), and a column visited while filling is forced to `NonBody`. -/
def sweepFill (e0 el : ℕ) : ℕ → Bool → List Label → List Label
  | _, _, [] => []
  | x, fill, c :: r =>
    let f1 := if x = e0 then false else fill
    let f2 := if x = el then true else f1
    (if f2 then Label.NonBody else c) :: sweepFill e0 el (x + 1) f2 r

/-- The interior/exterior separation pass on one row: edges, fake-edge
removal, then the sweep; with an empty edge list the fill flag stays on for
the whole row, so every column becomes `NonBody`. -/
def separateRow (row : List Label) : List Label :=
  match dropFakeEdge row (rowEdges row) with
  | [] => row.map (fun _ => Label.NonBody)
  | e0 :: es => sweepFill e0 ((e0 :: es).getLastD 0) 0 true row

/-- `true` exactly on the `Air` label. -/
def isAir : Label → Bool
  | Label.Air => true
  | _ => false

/-- `true` exactly on the `Lung` label. -/
def isLung : Label → Bool
  | Label.Lung => true
  | _ => false

/-- Number of `Air` cells in a row (the counting half of pass 3,
source lines 161–168). -/
def countAirRow (r : List Label) : ℕ := r.countP isAir

/-- The recoloring half of pass 3: every `Air` cell becomes `Lung`. -/
def recolorRow (r : List Label) : List Label :=
  r.map (fun l => if l = Label.Air then Label.Lung else l)

/-- The below-threshold predicate grid: `all(image[y,x] < threshold)` on a
gray pixel `(v, v, v)` is just `v < t`. -/
def belowThreshold (t : ℕ) (norm : List (List ℕ)) : List (List Bool) :=
  norm.map (fun r => r.map (fun v => decide (v < t)))

/-- Passes 1–3 on the normalized image: threshold into the below-threshold
grid, classify with gap-fill, separate interior from exterior per row, then
count and recolor surviving air.  Returns the final classified image and
the lung pixel count. -/
def segmentPasses (t J : ℕ) (norm : List (List ℕ)) : List (List Label) × ℕ :=
  let c2 := (classify J (belowThreshold t norm)).map separateRow
  (c2.map recolorRow, (c2.map countAirRow).sum)

/-- One pixel of the normalization: `(v - min) / (max - min) * 255`
truncated to `uint8`.  The value is nonnegative and at most 255 whenever
`mn ≤ v ≤ mx` and `mn < mx`, so the float truncation toward zero is the
floor. -/
def normVal (mn mx v : ℚ) : ℕ := (((v - mn) / (mx - mn)) * 255).floor.toNat

/-- Normalization (source lines 71–73):
`(raw - min) / (max - min) * 255`, truncated to `uint8`.  An empty image
makes `np.min` raise, and a flat image (`max = min`) makes the division
produce `0.0/0.0 = NaN`, whose `uint8` cast is undefined; both are
modelled as `none`. -/
def normalizeImage (raw : List (List ℚ)) : Option (List (List ℕ)) :=
  match raw.flatten with
  | [] => none
  | a :: rest =>
    let mn := rest.foldl min a
    let mx := rest.foldl max a
    if mx = mn then none
    else some (raw.map (List.map (normVal mn mx)))

/-- The whole `lungDetection` computation on an already-loaded slice:
normalize, segment, and convert the pixel count to a physical area by
multiplying with the product of the two in-plane voxel spacings
(`area = area_pixels * (voxel_dimensions[0] * voxel_dimensions[1])`,
source lines 170–173).  Returns the classified image and the area. -/
def lungDetection (t J : ℕ) (raw : List (List ℚ)) (sp : ℚ × ℚ) :
    Option (List (List Label) × ℚ) :=
  match normalizeImage raw with
  | none => none
  | some norm =>
    let s := segmentPasses t J norm
    some (s.1, (s.2 : ℚ) * (sp.1 * sp.2))

/-- Number of `Lung` cells in a classified image. -/
def lungCount (img : List (List Label)) : ℕ :=
  (img.map (fun r => r.countP isLung)).sum

/-- Evaluation helper: once the flattened image, its extrema, and their
distinctness are known, normalization is the per-pixel map `normVal mn mx`. -/
lemma normalizeImage_eval (raw : List (List ℚ)) (a mn mx : ℚ) (rest : List ℚ)
    (h : raw.flatten = a :: rest) (hmn : rest.foldl min a = mn)
    (hmx : rest.foldl max a = mx) (hne : mx ≠ mn) :
    normalizeImage raw = some (raw.map (List.map (normVal mn mx))) := by
  unfold normalizeImage
  rw [h]
  simp [hmn, hmx, hne]

/-- Evaluation helper: on a normalizable slice, `lungDetection` is the
segmentation of the normalized image together with the spacing product. -/
lemma lungDetection_eq (t J : ℕ) (raw : List (List ℚ)) (sp : ℚ × ℚ)
    (n : List (List ℕ)) (h : normalizeImage raw = some n) :
    lungDetection t J raw sp =
      some ((segmentPasses t J n).1,
        ((segmentPasses t J n).2 : ℚ) * (sp.1 * sp.2)) := by
  unfold lungDetection
  rw [h]

/-- The Bool grid of `Air` positions of a classified image (the binary
Air-vs-Tissue state reused as the below/above-threshold predicate). -/
def airsGrid (L : List (List Label)) : List (List Bool) :=
  L.map (List.map isAir)

/-- C4, counterexample.  On the single-row grid whose below-threshold
predicate is `[false, false, true]` (e.g. intensities 100, 100, 10 with
threshold 40) and `jump_size = 15`, the classification pass retroactively
relabels column 1 to `Air` (one gap-fill event from column 0 to column 2)
even though no `Air` pixel was ever seen in the row before column 2: the
`last` marker is initialized to `(0, 0)`, so in row 0 the fill can reach
back to the virtual position `(0, 0)`.  This refutes the claim that
relabeling happens only when a previously seen `Air` pixel exists in the
same row. -/
theorem gapfill_without_prior_air_ce :
    classify 15 [[false, false, true]] = [[Tissue, Air, Air]] ∧
    classifyEvents 15 [[false, false, true]] = [(0, 0, 2)] ∧
    ([false, false, true].getD 0 false = false ∧
      [false, false, true].getD 1 false = false) := by
  decide

/-- C6, evaluation at the failing input.  On a flat raw image (all
intensities equal) the source's normalization divides by the zero range
`max - min`, producing `NaN` and an undefined `uint8` cast — modelled as
`none` — and the whole computation yields no result, rather than the
defined "all pixels map to one end of the range" fallback the spec
requires. -/
theorem normalize_flat_image_undefined :
    normalizeImage [[5, 5], [5, 5]] = none ∧
    lungDetection 40 15 [[5, 5], [5, 5]] (1, 1) = none := by
  constructor
  · decide
  · decide


/-- `normVal` at the two intensities used in concrete evaluations:
minimum 10 maps to 0. -/
lemma normVal_low : normVal 10 100 10 = 0 := by
  norm_num [normVal, Rat.floor]

/-- `normVal` at the two intensities used in concrete evaluations:
maximum 100 maps to 255. -/
lemma normVal_high : normVal 10 100 100 = 255 := by
  norm_num [normVal, Rat.floor]
  decide

/-- Normalization of the 1×3 slice with intensities 100, 100, 10. -/
lemma norm_100_100_10 : normalizeImage [[100, 100, 10]] = some [[255, 255, 0]] := by
  have h := normalizeImage_eval [[100, 100, 10]] 100 10 100 [100, 10] rfl
    (by norm_num) (by norm_num) (by norm_num)
  rw [h]
  simp [normVal_low, normVal_high]

/-- The tail of the flattened synthetic 10×10 image. -/
def synthRest : List ℚ :=
      [10, 10, 100, 100, 100, 100, 100, 10, 10, 10, 10, 10, 100, 100, 100,
      100, 100, 10, 10, 10, 10, 10, 100, 100, 100, 100, 100, 10, 10, 10,
      10, 10, 100, 100, 100, 100, 100, 10, 10, 10, 10, 10, 100, 100, 100,
      100, 100, 10, 10, 10, 10, 10, 100, 100, 100, 100, 100, 10, 10, 10,
      10, 10, 100, 100, 100, 100, 100, 10, 10, 10, 10, 10, 100, 100, 100,
      100, 100, 10, 10, 10, 10, 10, 100, 100, 100, 100, 100, 10, 10, 10,
      10, 10, 100, 100, 100, 100, 100, 10, 10]

/-- Normalization of the synthetic 10×10 image of the spec's concrete
scenario: intensity 10 (below threshold) maps to 0, intensity 100 (above
threshold) maps to 255. -/
lemma norm_synth10 :
    normalizeImage (List.replicate 10 [10, 10, 10, 100, 100, 100, 100, 100, 10, 10]) =
      some (List.replicate 10 [0, 0, 0, 255, 255, 255, 255, 255, 0, 0]) := by
  have m1 : min (10 : ℚ) 10 = 10 := by norm_num
  have m2 : min (10 : ℚ) 100 = 10 := by norm_num
  have M1 : max (10 : ℚ) 10 = 10 := by norm_num
  have M2 : max (10 : ℚ) 100 = 100 := by norm_num
  have M3 : max (100 : ℚ) 100 = 100 := by norm_num
  have M4 : max (100 : ℚ) 10 = 100 := by norm_num
  have h := normalizeImage_eval (List.replicate 10 [10, 10, 10, 100, 100, 100, 100, 100, 10, 10]) 10 10 100 synthRest
    rfl
    (by simp only [synthRest, List.foldl_cons, List.foldl_nil, m1, m2])
    (by simp only [synthRest, List.foldl_cons, List.foldl_nil, M1, M2, M3, M4])
    (by norm_num)
  rw [h, List.map_replicate]
  simp only [List.map_cons, List.map_nil, normVal_low, normVal_high]

/-- Segmentation of the normalized synthetic 10×10 image with
`threshold = 40`, `jump_size = 3`. -/
lemma seg_synth10 :
    segmentPasses 40 3 (List.replicate 10 [0, 0, 0, 255, 255, 255, 255, 255, 0, 0]) =
      (List.replicate 10
        [NonBody, NonBody, NonBody, Tissue, Tissue, Tissue, Tissue, Tissue,
          NonBody, NonBody], 0) := by
  decide

/-- C7, evaluation at the failing input.  The source never validates its
configuration: `threshold` and `jump_size` are plain module constants read
by `lungDetection`, and with `jump_size = 100` (far outside the documented
open interval `(10, 25)`) or `threshold = 1000` (outside any sane intensity
range) the segmentation still proceeds and returns an ordinary result — no
startup validation error exists anywhere in the code. -/
theorem no_parameter_validation_eval :
    lungDetection 40 100 [[100, 100, 10]] (1, 1) =
      some ([[NonBody, NonBody, NonBody]], 0) ∧
    lungDetection 1000 15 [[100, 100, 10]] (1, 1) =
      some ([[NonBody, NonBody, NonBody]], 0) := by
  constructor
  · rw [lungDetection_eq 40 100 [[100, 100, 10]] (1, 1) [[255, 255, 0]]
      norm_100_100_10]
    have hs : segmentPasses 40 100 [[255, 255, 0]] =
        ([[NonBody, NonBody, NonBody]], 0) := by decide
    rw [hs]
    norm_num
  · rw [lungDetection_eq 1000 15 [[100, 100, 10]] (1, 1) [[255, 255, 0]]
      norm_100_100_10]
    have hs : segmentPasses 1000 15 [[255, 255, 0]] =
        ([[NonBody, NonBody, NonBody]], 0) := by decide
    rw [hs]
    norm_num

/-- C8, counterexample.  On the spec's synthetic 10×10 image (each row has
columns 0–2 at intensity 10, i.e. below threshold 40 after normalization;
columns 3–7 at intensity 100, the 1-pixel "tissue spike" sitting at
column 7; columns 8–9 at intensity 10) with `jump_size = 3`, the pipeline
does NOT produce the labels the claim states.  The gap-fill cannot remove
the spike: the previous air pixel is at column 2, so the distance to the
air pixel at column 8 is 6 ≥ 3.  Column 7 stays `Tissue` and the air at
columns 8–9 is window-dressed away by the edge sweep (the trailing edge at
column 8 turns filling back on), so the actual result has no `Lung` pixel
at all and area 0, while the claim expects columns 7–8 to be `Lung`. -/
theorem synthetic_row_scenario_ce :
    lungDetection 40 3
        (List.replicate 10 [10, 10, 10, 100, 100, 100, 100, 100, 10, 10])
        (1, 1) =
      some (List.replicate 10
        [NonBody, NonBody, NonBody, Tissue, Tissue, Tissue, Tissue, Tissue,
          NonBody, NonBody], 0) ∧
    List.replicate 10
        ([NonBody, NonBody, NonBody, Tissue, Tissue, Tissue, Tissue, Tissue,
          NonBody, NonBody] : List Label) ≠
      List.replicate 10
        [NonBody, NonBody, NonBody, Tissue, Tissue, Tissue, Tissue, Lung,
          Lung, NonBody] := by
  constructor
  · rw [lungDetection_eq 40 3 _ (1, 1) _ norm_synth10, seg_synth10]
    norm_num
  · decide

/-- C8, amended.  On the spec's synthetic 10×10 image with `jump_size = 3`
no gap is bridged (the only candidate fill, from the air at column 2 to the
air at column 8, spans distance 6 ≥ 3), each row classifies as air on
columns 0–2 and 8–9 and tissue on columns 3–7, the edge sweep (edges at
columns 3 and 8, the trailing air edge kept) floods columns 0–2 and 8–9 as
`NonBody`, and the final image is `NonBody` on columns 0–2, 8, 9 and
`Tissue` on columns 3–7 in every row, with no `Lung` pixels and area 0. -/
theorem synthetic_row_scenario_actual :
    lungDetection 40 3
        (List.replicate 10 [10, 10, 10, 100, 100, 100, 100, 100, 10, 10])
        (1, 1) =
      some (List.replicate 10
        [NonBody, NonBody, NonBody, Tissue, Tissue, Tissue, Tissue, Tissue,
          NonBody, NonBody], 0) ∧
    classifyEvents 3
        (List.replicate 10
          [true, true, true, false, false, false, false, false, true, true]) =
      [] := by
  constructor
  · rw [lungDetection_eq 40 3 _ (1, 1) _ norm_synth10, seg_synth10]
    norm_num
  · decide

/-! ## Structural lemmas about the passes -/

/-- With a single edge `e` (first = last), the sweep's fill flag is switched
off and immediately back on at column `e`, so it is on at every column and
the whole row becomes `NonBody`. -/
lemma sweepFill_single_edge (e : ℕ) :
    ∀ (s : List Label) (x : ℕ), sweepFill e e x true s =
      s.map (fun _ => Label.NonBody) := by
  intro s
  induction s with
  | nil => intro x; rfl
  | cons c r ih =>
    intro x
    simp only [sweepFill, List.map_cons]
    by_cases hx : x = e <;> simp [hx, ih]

/-- Everything in a `fillAir` result is `Air` or was already in the row. -/
lemma mem_fillAir {l : Label} {a b : ℕ} :
    ∀ (s : List Label) (i : ℕ), l ∈ fillAir a b i s → l = Label.Air ∨ l ∈ s := by
  intro s
  induction s with
  | nil => intro i h; simp [fillAir] at h
  | cons c r ih =>
    intro i h
    simp only [fillAir, List.mem_cons] at h
    rcases h with h | h
    · by_cases hc : a < i ∧ i < b
      · simp [hc] at h; exact Or.inl h
      · simp [hc] at h; exact Or.inr (by simp [h])
    · rcases ih (i + 1) h with h1 | h1
      · exact Or.inl h1
      · exact Or.inr (List.mem_cons_of_mem _ h1)

/-- The classification pass only ever writes `Air` and `Tissue`. -/
lemma classifyRowAux_mem (J y : ℕ) :
    ∀ (s : List Bool) (x : ℕ) (last : ℕ × ℕ) (acc : List Label),
      (∀ l ∈ acc, l = Label.Air ∨ l = Label.Tissue) →
      ∀ l ∈ (classifyRowAux J y s x last acc).1,
        l = Label.Air ∨ l = Label.Tissue := by
  intro s
  induction s with
  | nil => intro x last acc hacc l hl; exact hacc l hl
  | cons b r ih =>
    intro x last acc hacc l hl
    simp only [classifyRowAux] at hl
    by_cases hb : b
    · simp only [hb, if_true] at hl
      refine ih (x + 1) (x, y) _ ?_ l hl
      intro m hm
      rcases List.mem_append.1 hm with hm1 | hm1
      · by_cases hc : y = last.2 ∧ (x : ℤ) - (last.1 : ℤ) < (J : ℤ)
        · simp only [hc, if_true] at hm1
          rcases mem_fillAir _ _ hm1 with h1 | h1
          · exact Or.inl h1
          · exact hacc m h1
        · simp only [hc, if_false] at hm1
          exact hacc m hm1
      · simp at hm1; exact Or.inl hm1
    · simp only [hb, if_false] at hl
      refine ih (x + 1) last _ ?_ l hl
      intro m hm
      rcases List.mem_append.1 hm with hm1 | hm1
      · exact hacc m hm1
      · simp at hm1; exact Or.inr hm1

/-- Rows produced by the row loop hold only `Air` and `Tissue` labels. -/
lemma classifyRowsAux_mem (J : ℕ) :
    ∀ (rs : List (List Bool)) (y : ℕ) (last : ℕ × ℕ),
      ∀ row ∈ classifyRowsAux J rs y last, ∀ l ∈ row,
        l = Label.Air ∨ l = Label.Tissue := by
  intro rs
  induction rs with
  | nil => intro y last row h; simp [classifyRowsAux] at h
  | cons r rest ih =>
    intro y last row h
    simp only [classifyRowsAux, List.mem_cons] at h
    rcases h with h | h
    · intro l hl
      exact classifyRowAux_mem J y r 0 last [] (by simp) l (h ▸ hl)
    · exact ih _ _ row h

/-- Every row of `classify` holds only `Air` and `Tissue` labels. -/
lemma classify_mem (J : ℕ) (P : List (List Bool)) :
    ∀ row ∈ classify J P, ∀ l ∈ row, l = Label.Air ∨ l = Label.Tissue :=
  classifyRowsAux_mem J P 0 (0, 0)

/-- Everything in a sweep result is `NonBody` or was already in the row. -/
lemma mem_sweepFill {l : Label} {e0 el : ℕ} :
    ∀ (s : List Label) (x : ℕ) (f : Bool),
      l ∈ sweepFill e0 el x f s → l = Label.NonBody ∨ l ∈ s := by
  intro s
  induction s with
  | nil => intro x f h; simp [sweepFill] at h
  | cons c r ih =>
    intro x f h
    simp only [sweepFill, List.mem_cons] at h
    rcases h with h | h
    · have hite : ∀ (b : Bool), l = (if b then Label.NonBody else c) →
          l = Label.NonBody ∨ l = c := by
        intro b hb
        cases b
        · simp at hb
          exact Or.inr hb
        · simp at hb
          exact Or.inl hb
      rcases hite _ h with h1 | h1
      · exact Or.inl h1
      · exact Or.inr (by simp [h1])
    · rcases ih _ _ h with h1 | h1
      · exact Or.inl h1
      · exact Or.inr (List.mem_cons_of_mem _ h1)

/-- Everything in a separated row is `NonBody` or was already in the row. -/
lemma mem_separateRow {l : Label} {row : List Label} :
    l ∈ separateRow row → l = Label.NonBody ∨ l ∈ row := by
  unfold separateRow
  match dropFakeEdge row (rowEdges row) with
  | [] =>
    intro h
    rcases List.mem_map.1 h with ⟨m, hm, he⟩
    exact Or.inl he.symm
  | e0 :: es => exact fun h => mem_sweepFill row 0 true h

/-- A recolored row never contains `Air`, and its labels are `Lung` or
labels of the input row. -/
lemma mem_recolorRow {l : Label} {row : List Label} :
    l ∈ recolorRow row → l ≠ Label.Air ∧ (l = Label.Lung ∨ l ∈ row) := by
  unfold recolorRow
  intro h
  rcases List.mem_map.1 h with ⟨m, hm, he⟩
  by_cases hma : m = Label.Air
  · simp [hma] at he; exact ⟨by simp [← he], Or.inl he.symm⟩
  · simp [hma] at he; exact ⟨he ▸ hma, Or.inr (he ▸ hm)⟩

/-- C10.  A row whose edge list, after fake-edge removal, has exactly one
edge is entirely relabeled `NonBody` by the interior/exterior fill (the
fill flag is switched off and back on at the single edge column, so every
column is filled), and such a row contributes 0 to the lung area. -/
theorem single_edge_row_all_nonbody (row : List Label)
    (h : (dropFakeEdge row (rowEdges row)).length = 1) :
    separateRow row = row.map (fun _ => Label.NonBody) ∧
    countAirRow (separateRow row) = 0 ∧
    lungCount [recolorRow (separateRow row)] = 0 := by
  obtain ⟨e, he⟩ : ∃ e, dropFakeEdge row (rowEdges row) = [e] := by
    cases hd : dropFakeEdge row (rowEdges row) with
    | nil => rw [hd] at h; simp at h
    | cons a t =>
      rw [hd] at h
      have ht : t = [] := List.length_eq_zero.1 (by simpa using h)
      exact ⟨a, by rw [ht]⟩
  have hsep : separateRow row = row.map (fun _ => Label.NonBody) := by
    unfold separateRow
    rw [he]
    simpa using sweepFill_single_edge e row 0
  refine ⟨hsep, ?_, ?_⟩
  · rw [hsep]
    simp [countAirRow, List.countP_eq_zero, isAir]
  · rw [hsep]
    simp [lungCount, recolorRow, List.countP_eq_zero, isLung]

/-- C10, witness: the row `[Tissue, Air]` has the single edge column 1
(the trailing `Air` is not a fake edge), and is fully filled. -/
theorem single_edge_row_all_nonbody_witness :
    (dropFakeEdge [Label.Tissue, Label.Air]
        (rowEdges [Label.Tissue, Label.Air])).length = 1 ∧
    separateRow [Label.Tissue, Label.Air] =
      [Label.NonBody, Label.NonBody] ∧
    countAirRow (separateRow [Label.Tissue, Label.Air]) = 0 := by
  have h := single_edge_row_all_nonbody [Label.Tissue, Label.Air] (by decide)
  exact ⟨by decide, by rw [h.1]; decide, h.2.1⟩

/-- Destructor: a successful `lungDetection` run names a normalized image
whose segmentation produced the result. -/
lemma lungDetection_some {t J : ℕ} {raw : List (List ℚ)} {sp : ℚ × ℚ}
    {img : List (List Label)} {area : ℚ}
    (h : lungDetection t J raw sp = some (img, area)) :
    ∃ n, normalizeImage raw = some n ∧
      img = (segmentPasses t J n).1 ∧
      area = ((segmentPasses t J n).2 : ℚ) * (sp.1 * sp.2) := by
  unfold lungDetection at h
  cases hn : normalizeImage raw with
  | none => rw [hn] at h; simp at h
  | some n =>
    rw [hn] at h
    simp only [Option.some.injEq, Prod.mk.injEq] at h
    exact ⟨n, rfl, h.1.symm, h.2.symm⟩

/-- The rows of a segmentation result are exactly the classified rows after
separation and recoloring. -/
lemma segmentPasses_fst (t J : ℕ) (n : List (List ℕ)) :
    (segmentPasses t J n).1 =
      ((classify J (belowThreshold t n)).map separateRow).map recolorRow := rfl

/-- C2.  After the full pipeline, every cell of the classified image holds
one of the three labels `Tissue`, `NonBody`, `Lung` and never `Air` (the
counting pass recolors every surviving `Air` cell to `Lung`), and the four
label colors of the source's `colors` class are pairwise distinct, so the
four labels are mutually exclusive. -/
theorem final_labels_exhaustive_exclusive (t J : ℕ) (raw : List (List ℚ))
    (sp : ℚ × ℚ) (img : List (List Label)) (area : ℚ)
    (h : lungDetection t J raw sp = some (img, area)) :
    (∀ r ∈ img, ∀ l ∈ r,
      (l = Label.Tissue ∨ l = Label.NonBody ∨ l = Label.Lung) ∧
        l ≠ Label.Air) ∧
    (∀ l1 l2 : Label, l1 ≠ l2 → labelColor l1 ≠ labelColor l2) := by
  obtain ⟨n, hn, himg, harea⟩ := lungDetection_some h
  constructor
  · intro r hr l hl
    rw [himg, segmentPasses_fst] at hr
    rcases List.mem_map.1 hr with ⟨r2, hr2, hrec⟩
    rcases List.mem_map.1 hr2 with ⟨r1, hr1, hsep⟩
    have hnoair := mem_recolorRow (hrec ▸ hl)
    refine ⟨?_, hnoair.1⟩
    rcases hnoair.2 with hlung | hmem
    · exact Or.inr (Or.inr hlung)
    · rcases mem_separateRow (hsep ▸ hmem) with hnb | hmem1
      · exact Or.inr (Or.inl hnb)
      · rcases classify_mem J (belowThreshold t n) r1 hr1 l hmem1 with ha | ht
        · exact absurd ha hnoair.1
        · exact Or.inl ht
  · intro l1 l2 hne
    cases l1 <;> cases l2 <;>
      simp_all [labelColor, colors_air, colors_tissue, colors_non_body,
        colors_lungs]

/-- C2, witness: a concrete successful run, on the 1×3 slice with
intensities 100, 100, 10 (threshold 40, jump 15), whose final image
satisfies the exhaustivity/exclusivity property. -/
theorem final_labels_exhaustive_exclusive_witness :
    lungDetection 40 15 [[100, 100, 10]] (1, 1) =
      some ([[Label.NonBody, Label.NonBody, Label.NonBody]], 0) ∧
    (∀ r ∈ [[Label.NonBody, Label.NonBody, Label.NonBody]], ∀ l ∈ r,
      (l = Label.Tissue ∨ l = Label.NonBody ∨ l = Label.Lung) ∧
        l ≠ Label.Air) ∧
    (∀ l1 l2 : Label, l1 ≠ l2 → labelColor l1 ≠ labelColor l2) := by
  have h : lungDetection 40 15 [[100, 100, 10]] (1, 1) =
      some ([[Label.NonBody, Label.NonBody, Label.NonBody]], 0) := by
    rw [lungDetection_eq 40 15 [[100, 100, 10]] (1, 1) [[255, 255, 0]]
      norm_100_100_10]
    have hs : segmentPasses 40 15 [[255, 255, 0]] =
        ([[Label.NonBody, Label.NonBody, Label.NonBody]], 0) := by decide
    rw [hs]
    norm_num
  exact ⟨h, final_labels_exhaustive_exclusive 40 15 [[100, 100, 10]] (1, 1)
    [[Label.NonBody, Label.NonBody, Label.NonBody]] 0 h⟩

/-- Detected edges lie between column `x` (inclusive) and the row's end. -/
lemma rowEdgesAux_bounds :
    ∀ (s : List Label) (x : ℕ) (p : Label), ∀ e ∈ rowEdgesAux x p s,
      x ≤ e ∧ e < x + s.length := by
  intro s
  induction s with
  | nil => intro x p e he; simp [rowEdgesAux] at he
  | cons c r ih =>
    intro x p e he
    simp only [rowEdgesAux, List.mem_append] at he
    rcases he with he | he
    · have : e = x := by
        by_cases hc : c ≠ p <;> simp [hc] at he
        exact he
      subst this
      simp
    · have := ih (x + 1) c e he
      simp only [List.length_cons]
      omega

/-- Detected edges are strictly increasing. -/
lemma rowEdgesAux_sorted :
    ∀ (s : List Label) (x : ℕ) (p : Label),
      List.Sorted (· < ·) (rowEdgesAux x p s) := by
  intro s
  induction s with
  | nil => intro x p; simp [rowEdgesAux]
  | cons c r ih =>
    intro x p
    simp only [rowEdgesAux]
    by_cases hc : c ≠ p
    · rw [if_pos hc]
      rw [List.singleton_append, List.sorted_cons]
      refine ⟨fun b hb => ?_, ih (x + 1) c⟩
      have := rowEdgesAux_bounds r (x + 1) c b hb
      omega
    · rw [if_neg hc]
      rw [List.nil_append]
      exact ih (x + 1) c

/-- Edges of a row sit strictly inside `[1, row.length)`. -/
lemma rowEdges_bounds (row : List Label) :
    ∀ e ∈ rowEdges row, 1 ≤ e ∧ e < row.length := by
  cases row with
  | nil => intro e he; simp [rowEdges] at he
  | cons c r =>
    intro e he
    have := rowEdgesAux_bounds r 1 c e he
    simp only [List.length_cons]
    omega

/-- The edge list of a row is strictly increasing. -/
lemma rowEdges_sorted (row : List Label) :
    List.Sorted (· < ·) (rowEdges row) := by
  cases row with
  | nil => simp [rowEdges]
  | cons c r => exact rowEdgesAux_sorted r 1 c

/-- Fake-edge removal keeps a sublist of the edges. -/
lemma dropFakeEdge_sublist (row : List Label) (es : List ℕ) :
    List.Sublist (dropFakeEdge row es) es := by
  unfold dropFakeEdge
  cases es.getLast? with
  | none => exact List.Sublist.refl es
  | some e =>
    by_cases hc : row.getD e Label.Air = Label.Tissue
    · simp only [hc, if_true]
      exact List.dropLast_sublist es
    · simp only [hc, if_false]
      exact List.Sublist.refl es

/-- The default-carrying last element of a nonempty list is a member. -/
lemma getLastD_mem : ∀ (l : List ℕ) (d : ℕ), l ≠ [] → l.getLastD d ∈ l := by
  intro l
  induction l with
  | nil => simp
  | cons a t ih =>
    intro d _
    cases t with
    | nil => simp [List.getLastD_cons, List.getLastD]
    | cons b t2 =>
      rw [List.getLastD_cons]
      exact List.mem_cons_of_mem _ (ih a (by simp))

/-- Dropping the head of a list with a nonempty tail keeps its last
element. -/
lemma getLast?_cons_of_ne_nil {α : Type} (a : α) (L : List α) (h : L ≠ []) :
    (a :: L).getLast? = L.getLast? := by
  cases L with
  | nil => exact absurd rfl h
  | cons b t => exact List.getLast?_cons_cons

/-- The sweep, entered with the fill flag satisfying the invariant
"already past the last edge implies filling", ends with its final column
filled: the last-edge toggle turns filling on at `el` and (since `e0 ≤ el`)
the first-edge toggle can never turn it off afterwards. -/
lemma sweepFill_getLast (e0 el : ℕ) (he : e0 ≤ el) :
    ∀ (s : List Label) (x : ℕ) (f : Bool), s ≠ [] → el < x + s.length →
      (el < x → f = true) →
      (sweepFill e0 el x f s).getLast? = some Label.NonBody := by
  intro s
  induction s with
  | nil => intro x f hne; exact absurd rfl hne
  | cons c r ih =>
    intro x f hne hel hinv
    have hf2 : el < x + 1 →
        (if x = el then true else if x = e0 then false else f) = true := by
      intro hlt
      by_cases hx : x = el
      · simp [hx]
      · have h1 : el < x := by omega
        have hx0 : x ≠ e0 := by omega
        simp [hx, hx0, hinv h1]
    cases r with
    | nil =>
      simp only [sweepFill, List.getLast?_singleton]
      rw [hf2 (by simpa using hel)]
      simp
    | cons b t =>
      have hstep : sweepFill e0 el x f (c :: b :: t) =
          (if (if x = el then true else if x = e0 then false else f) = true
            then Label.NonBody else c) ::
          sweepFill e0 el (x + 1)
            (if x = el then true else if x = e0 then false else f) (b :: t) := by
        simp [sweepFill]
      rw [hstep]
      rw [getLast?_cons_of_ne_nil _ _ (by simp [sweepFill])]
      refine ih (x + 1) _ (by simp) ?_ hf2
      simp only [List.length_cons] at hel ⊢
      omega

/-- Sweeping preserves the row length. -/
lemma sweepFill_length (e0 el : ℕ) :
    ∀ (s : List Label) (x : ℕ) (f : Bool),
      (sweepFill e0 el x f s).length = s.length := by
  intro s
  induction s with
  | nil => intro x f; rfl
  | cons c r ih => intro x f; simp [sweepFill, ih]

/-- Separation preserves the row length. -/
lemma separateRow_length (row : List Label) :
    (separateRow row).length = row.length := by
  unfold separateRow
  cases dropFakeEdge row (rowEdges row) with
  | nil => simp
  | cons e0 es => exact sweepFill_length _ _ row 0 true

/-- After separation, a nonempty row starts and ends with `NonBody`:
the first and last columns can never carry an edge toggle that leaves the
fill flag off there. -/
lemma separateRow_margins (row : List Label) (hne : row ≠ []) :
    (separateRow row).head? = some Label.NonBody ∧
    (separateRow row).getLast? = some Label.NonBody := by
  unfold separateRow
  cases hd : dropFakeEdge row (rowEdges row) with
  | nil =>
    cases row with
    | nil => exact absurd rfl hne
    | cons c r =>
      constructor
      · simp
      · obtain ⟨a, ha⟩ := Option.isSome_iff_exists.1
          (List.getLast?_isSome.2 (by simp) : ((c :: r).getLast?).isSome)
        rw [List.getLast?_map, ha]
        rfl
  | cons e0 rest =>
    have hsub : ∀ e ∈ e0 :: rest, e ∈ rowEdges row := by
      intro e hee
      exact (dropFakeEdge_sublist row (rowEdges row)).subset (hd ▸ hee)
    have hsorted : List.Sorted (· < ·) (e0 :: rest) :=
      hd ▸ (rowEdges_sorted row).sublist (dropFakeEdge_sublist row (rowEdges row))
    have he0 := rowEdges_bounds row e0 (hsub e0 (List.mem_cons_self e0 rest))
    have helmem : (e0 :: rest).getLastD 0 ∈ e0 :: rest :=
      getLastD_mem (e0 :: rest) 0 (by simp)
    have hel := rowEdges_bounds row _ (hsub _ helmem)
    have he0el : e0 ≤ (e0 :: rest).getLastD 0 := by
      rcases List.mem_cons.1 helmem with h1 | h1
      · omega
      · exact le_of_lt (List.rel_of_sorted_cons hsorted _ h1)
    constructor
    · cases row with
      | nil => exact absurd rfl hne
      | cons c r =>
        have h0e : (0 : ℕ) ≠ e0 := by omega
        have h0l : (0 : ℕ) ≠ (e0 :: rest).getLastD 0 := by omega
        simp [sweepFill, h0e, h0l]
    · refine sweepFill_getLast e0 _ he0el row 0 true hne ?_ ?_
      · omega
      · intro h
        exact absurd h (Nat.not_lt_zero _)

/-- C5.  In the final classified image the first and the last cell of every
nonempty row are `NonBody` — hence never `Lung`; a row with an empty edge
list (after fake-edge removal) is `NonBody` throughout. -/
theorem margins_never_lung (t J : ℕ) (raw : List (List ℚ)) (sp : ℚ × ℚ)
    (img : List (List Label)) (area : ℚ)
    (h : lungDetection t J raw sp = some (img, area)) :
    (∀ r ∈ img, r ≠ [] →
      r.head? = some Label.NonBody ∧ r.getLast? = some Label.NonBody ∧
      r.head? ≠ some Label.Lung ∧ r.getLast? ≠ some Label.Lung) ∧
    (∀ row : List Label, dropFakeEdge row (rowEdges row) = [] →
      separateRow row = row.map (fun _ => Label.NonBody)) := by
  obtain ⟨n, hn, himg, _⟩ := lungDetection_some h
  constructor
  · intro r hr hne
    rw [himg, segmentPasses_fst] at hr
    rcases List.mem_map.1 hr with ⟨s1, hs1, hrec⟩
    rcases List.mem_map.1 hs1 with ⟨r1, hr1, hsep⟩
    have hs1ne : s1 ≠ [] := by
      intro hempty
      rw [← hrec, hempty] at hne
      exact hne rfl
    have hr1ne : r1 ≠ [] := by
      intro hempty
      rw [hempty] at hsep
      exact hs1ne (by rw [← hsep]; rfl)
    have hm := separateRow_margins r1 hr1ne
    have hhead : r.head? = some Label.NonBody := by
      rw [← hrec]
      unfold recolorRow
      rw [List.head?_map, ← hsep, hm.1]
      rfl
    have hlast : r.getLast? = some Label.NonBody := by
      rw [← hrec]
      unfold recolorRow
      rw [List.getLast?_map, ← hsep, hm.2]
      rfl
    exact ⟨hhead, hlast, by simp [hhead], by simp [hlast]⟩
  · intro row heq
    unfold separateRow
    rw [heq]

/-- C5, witness: a concrete successful run whose (nonempty) final row has
`NonBody` in both margin columns, and a concrete row with an empty edge
list after fake-edge removal that is filled entirely. -/
theorem margins_never_lung_witness :
    lungDetection 40 15 [[100, 100, 10]] (1, 1) =
      some ([[Label.NonBody, Label.NonBody, Label.NonBody]], 0) ∧
    ([Label.NonBody, Label.NonBody, Label.NonBody].head? =
        some Label.NonBody ∧
      [Label.NonBody, Label.NonBody, Label.NonBody].getLast? =
        some Label.NonBody ∧
      [Label.NonBody, Label.NonBody, Label.NonBody].head? ≠
        some Label.Lung ∧
      [Label.NonBody, Label.NonBody, Label.NonBody].getLast? ≠
        some Label.Lung) ∧
    separateRow [Label.Air, Label.Air] =
      [Label.Air, Label.Air].map (fun _ => Label.NonBody) := by
  have h : lungDetection 40 15 [[100, 100, 10]] (1, 1) =
      some ([[Label.NonBody, Label.NonBody, Label.NonBody]], 0) := by
    rw [lungDetection_eq 40 15 [[100, 100, 10]] (1, 1) [[255, 255, 0]]
      norm_100_100_10]
    have hs : segmentPasses 40 15 [[255, 255, 0]] =
        ([[Label.NonBody, Label.NonBody, Label.NonBody]], 0) := by decide
    rw [hs]
    norm_num
  have hmain := margins_never_lung 40 15 [[100, 100, 10]] (1, 1)
    [[Label.NonBody, Label.NonBody, Label.NonBody]] 0 h
  exact ⟨h, hmain.1 _ (by simp) (by simp),
    hmain.2 [Label.Air, Label.Air] (by decide)⟩

/-- Counting after recoloring: on a row without `Lung` labels, the `Lung`
cells of the recolored row are exactly the `Air` cells of the row. -/
lemma countP_isLung_recolor (r : List Label)
    (hno : ∀ l ∈ r, l ≠ Label.Lung) :
    (recolorRow r).countP isLung = countAirRow r := by
  induction r with
  | nil => rfl
  | cons c rest ih =>
    have hc : c ≠ Label.Lung := hno c (List.mem_cons_self c rest)
    have ih2 := ih (fun l hl => hno l (List.mem_cons_of_mem c hl))
    unfold recolorRow countAirRow at ih2 ⊢
    simp only [List.map_cons, List.countP_cons]
    rw [ih2]
    by_cases hca : c = Label.Air
    · simp [hca, isLung, isAir]
    · have h1 : isAir c = false := by
        cases c <;> simp_all [isAir]
      have h2 : isLung c = false := by
        cases c <;> simp_all [isLung]
      simp [hca, h1, h2]

/-- Summed over an image without `Lung` labels, recoloring turns the air
count into the lung count. -/
lemma lungCount_map_recolor (rows : List (List Label))
    (hno : ∀ r ∈ rows, ∀ l ∈ r, l ≠ Label.Lung) :
    lungCount (rows.map recolorRow) = (rows.map countAirRow).sum := by
  induction rows with
  | nil => rfl
  | cons r rs ih =>
    have h1 := countP_isLung_recolor r (hno r (List.mem_cons_self r rs))
    have h2 := ih (fun r2 hr2 => hno r2 (List.mem_cons_of_mem r hr2))
    unfold lungCount at h2 ⊢
    simp only [List.map_cons, List.sum_cons]
    rw [h1, h2]

/-- The pixel count returned by the segmentation is exactly the number of
`Lung` cells of the final image. -/
lemma lungCount_segmentPasses (t J : ℕ) (n : List (List ℕ)) :
    lungCount (segmentPasses t J n).1 = (segmentPasses t J n).2 := by
  have hc2 : ∀ r ∈ (classify J (belowThreshold t n)).map separateRow,
      ∀ l ∈ r, l ≠ Label.Lung := by
    intro r hr l hl
    rcases List.mem_map.1 hr with ⟨r1, hr1, hsep⟩
    rcases mem_separateRow (hsep ▸ hl) with h1 | h1
    · simp [h1]
    · rcases classify_mem J _ r1 hr1 l h1 with h2 | h2 <;> simp [h2]
  exact lungCount_map_recolor _ hc2

/-- C1.  The physical area returned by `lungDetection` is the number of
`Lung`-labeled cells times the product of the two in-plane voxel spacings;
in particular, for the same slice and parameters the area depends on the
spacings only through their product. -/
theorem lungDetection_area_eq_count_mul_spacing (t J : ℕ)
    (raw : List (List ℚ)) (sp : ℚ × ℚ) (img : List (List Label)) (area : ℚ)
    (h : lungDetection t J raw sp = some (img, area)) :
    area = (lungCount img : ℚ) * (sp.1 * sp.2) ∧
    (∀ (sp2 : ℚ × ℚ) (img2 : List (List Label)) (area2 : ℚ),
      lungDetection t J raw sp2 = some (img2, area2) →
      sp.1 * sp.2 = sp2.1 * sp2.2 → area2 = area) := by
  obtain ⟨n, hn, himg, harea⟩ := lungDetection_some h
  constructor
  · rw [harea, himg, lungCount_segmentPasses]
  · intro sp2 img2 area2 h2 hprod
    obtain ⟨n2, hn2, himg2, harea2⟩ := lungDetection_some h2
    have hnn : n2 = n := by
      rw [hn] at hn2
      exact (Option.some_inj.1 hn2).symm
    rw [harea2, hnn, harea, ← hprod]

/-- The C1 witness slice: one row of 67 pixels — a tissue wall pixel, 50
air pixels, 15 tissue pixels (wide enough that the trailing air pixel is
not bridged by `jump_size = 15`), one trailing air pixel. -/
def slice67 : List (List ℚ) :=
  [[100, 10, 10, 10, 10, 10, 10, 10, 10, 10, 10, 10, 10, 10, 10, 10, 10,
    10, 10, 10, 10, 10, 10, 10, 10, 10, 10, 10, 10, 10, 10, 10, 10, 10,
    10, 10, 10, 10, 10, 10, 10, 10, 10, 10, 10, 10, 10, 10, 10, 10, 10,
    100, 100, 100, 100, 100, 100, 100, 100, 100, 100, 100, 100, 100, 100,
    100, 10]]

/-- The tail of the flattened witness slice. -/
def rest66 : List ℚ :=
  [10, 10, 10, 10, 10, 10, 10, 10, 10, 10, 10, 10, 10, 10, 10, 10, 10, 10,
  10, 10, 10, 10, 10, 10, 10, 10, 10, 10, 10, 10, 10, 10, 10, 10, 10, 10,
  10, 10, 10, 10, 10, 10, 10, 10, 10, 10, 10, 10, 10, 10, 100, 100, 100,
  100, 100, 100, 100, 100, 100, 100, 100, 100, 100, 100, 100, 10]

/-- The normalized witness slice. -/
def norm67 : List (List ℕ) :=
  [[255, 0, 0, 0, 0, 0, 0, 0, 0, 0, 0, 0, 0, 0, 0, 0, 0, 0, 0, 0, 0, 0,
    0, 0, 0, 0, 0, 0, 0, 0, 0, 0, 0, 0, 0, 0, 0, 0, 0, 0, 0, 0, 0, 0, 0,
    0, 0, 0, 0, 0, 0, 255, 255, 255, 255, 255, 255, 255, 255, 255, 255,
    255, 255, 255, 255, 255, 0]]

/-- The final classified image of the witness slice: 50 lung pixels. -/
def img67 : List (List Label) :=
  [[Label.NonBody, Label.Lung, Label.Lung, Label.Lung, Label.Lung,
    Label.Lung, Label.Lung, Label.Lung, Label.Lung, Label.Lung,
    Label.Lung, Label.Lung, Label.Lung, Label.Lung, Label.Lung,
    Label.Lung, Label.Lung, Label.Lung, Label.Lung, Label.Lung,
    Label.Lung, Label.Lung, Label.Lung, Label.Lung, Label.Lung,
    Label.Lung, Label.Lung, Label.Lung, Label.Lung, Label.Lung,
    Label.Lung, Label.Lung, Label.Lung, Label.Lung, Label.Lung,
    Label.Lung, Label.Lung, Label.Lung, Label.Lung, Label.Lung,
    Label.Lung, Label.Lung, Label.Lung, Label.Lung, Label.Lung,
    Label.Lung, Label.Lung, Label.Lung, Label.Lung, Label.Lung,
    Label.Lung, Label.Tissue, Label.Tissue, Label.Tissue, Label.Tissue,
    Label.Tissue, Label.Tissue, Label.Tissue, Label.Tissue, Label.Tissue,
    Label.Tissue, Label.Tissue, Label.Tissue, Label.Tissue, Label.Tissue,
    Label.Tissue, Label.NonBody]]

/-- Normalization of the witness slice. -/
lemma normalizeImage_slice67 : normalizeImage slice67 = some norm67 := by
  have m1 : min (100 : ℚ) 10 = 10 := by norm_num
  have m2 : min (10 : ℚ) 10 = 10 := by norm_num
  have m3 : min (10 : ℚ) 100 = 10 := by norm_num
  have M1 : max (100 : ℚ) 10 = 100 := by norm_num
  have M2 : max (100 : ℚ) 100 = 100 := by norm_num
  have h := normalizeImage_eval slice67 100 10 100 rest66 rfl
    (by simp only [rest66, List.foldl_cons, List.foldl_nil, m1, m2, m3])
    (by simp only [rest66, List.foldl_cons, List.foldl_nil, M1, M2])
    (by norm_num)
  rw [h]
  simp only [slice67, norm67, List.map_cons, List.map_nil, normVal_low,
    normVal_high]

/-- Segmentation of the normalized witness slice: the 50 enclosed air
pixels become `Lung`, the margins `NonBody`. -/
lemma segmentPasses_norm67 :
    segmentPasses 40 15 norm67 = (img67, 50) := by
  decide

/-- C1, witness: on the witness slice the returned area equals the lung
pixel count (50) times the spacing product, and spacings `(1, 1)` and
`(2, 1/2)` with equal product give the same area. -/
theorem lungDetection_area_witness :
    lungDetection 40 15 slice67 (1, 1) = some (img67, 50) ∧
    lungDetection 40 15 slice67 (2, 1 / 2) = some (img67, 50) ∧
    (50 : ℚ) = (lungCount img67 : ℚ) * (1 * 1) ∧ (50 : ℚ) = 50 := by
  have h1 : lungDetection 40 15 slice67 (1, 1) = some (img67, 50) := by
    rw [lungDetection_eq 40 15 slice67 (1, 1) norm67 normalizeImage_slice67,
      segmentPasses_norm67]
    norm_num
  have h2 : lungDetection 40 15 slice67 (2, 1 / 2) = some (img67, 50) := by
    rw [lungDetection_eq 40 15 slice67 (2, 1 / 2) norm67
      normalizeImage_slice67, segmentPasses_norm67]
    norm_num
  refine ⟨h1, h2, ?_, ?_⟩
  · exact (lungDetection_area_eq_count_mul_spacing 40 15 slice67 (1, 1)
      img67 50 h1).1
  · exact (lungDetection_area_eq_count_mul_spacing 40 15 slice67 (1, 1)
      img67 50 h1).2 (2, 1 / 2) img67 50 h2 (by norm_num)

/-- Invariant of the `last` marker: it is still the initial `(0, 0)` or it
points at a below-threshold (air) pixel of the grid. -/
def lastSeenOK (P : List (List Bool)) (last : ℕ × ℕ) : Prop :=
  last = (0, 0) ∨ (P.getD last.2 []).getD last.1 false = true

/-- Soundness property of one gap-fill event `(y, a, x)`: the fill start
`a` is a previously seen air pixel of row `y` — or the virtual initial
marker position `(0, 0)` — the jump condition held, and the filled run
`a+1 .. x-1` is nonempty. -/
def eventOK (J : ℕ) (P : List (List Bool)) (e : ℕ × ℕ × ℕ) : Prop :=
  ((P.getD e.1 []).getD e.2.1 false = true ∨ (e.1 = 0 ∧ e.2.1 = 0)) ∧
  (e.2.2 : ℤ) - (e.2.1 : ℤ) < (J : ℤ) ∧ e.2.1 + 1 < e.2.2

/-- Indexing a list via a known `drop` decomposition. -/
lemma getD_of_drop {α : Type} :
    ∀ (l : List α) (n : ℕ) (b : α) (t : List α) (d : α),
      l.drop n = b :: t → l.getD n d = b := by
  intro l
  induction l with
  | nil => intro n b t d h; simp at h
  | cons a l2 ih =>
    intro n b t d h
    cases n with
    | zero => simp at h; simp [h.1]
    | succ m => exact ih m b t d h

/-- Advancing a known `drop` decomposition by one. -/
lemma drop_succ_of_drop {α : Type} (l : List α) (n : ℕ) (b : α) (t : List α)
    (h : l.drop n = b :: t) : l.drop (n + 1) = t := by
  rw [← List.tail_drop, h]
  rfl

/-- All gap-fill events emitted while scanning one row are sound, and the
`last` marker invariant is maintained. -/
lemma classifyRowEv_sound (J y : ℕ) (P : List (List Bool)) :
    ∀ (s : List Bool) (x : ℕ) (last : ℕ × ℕ) (evs : List (ℕ × ℕ × ℕ)),
      s = (P.getD y []).drop x →
      lastSeenOK P last →
      (∀ e ∈ evs, eventOK J P e) →
      (∀ e ∈ (classifyRowEv J y s x last evs).1, eventOK J P e) ∧
      lastSeenOK P (classifyRowEv J y s x last evs).2 := by
  intro s
  induction s with
  | nil =>
    intro x last evs _ hlast hevs
    exact ⟨hevs, hlast⟩
  | cons b s2 ih =>
    intro x last evs hs hlast hevs
    have hb : (P.getD y []).getD x false = b :=
      getD_of_drop (P.getD y []) x b s2 false hs.symm
    have hs2 : s2 = (P.getD y []).drop (x + 1) :=
      (drop_succ_of_drop (P.getD y []) x b s2 hs.symm).symm
    cases b with
    | false =>
      simp only [classifyRowEv, Bool.false_eq_true, if_false]
      exact ih (x + 1) last evs hs2 hlast hevs
    | true =>
      simp only [classifyRowEv, if_true]
      refine ih (x + 1) (x, y) _ hs2 (Or.inr (by simpa using hb)) ?_
      intro e he
      by_cases hc : (y = last.2 ∧ (x : ℤ) - (last.1 : ℤ) < (J : ℤ)) ∧
          last.1 + 1 < x
      · rw [if_pos hc] at he
        rcases List.mem_append.1 he with h1 | h1
        · exact hevs e h1
        · have he2 : e = (y, last.1, x) := by simpa using h1
          subst he2
          refine ⟨?_, hc.1.2, hc.2⟩
          rcases hlast with h2 | h2
          · exact Or.inr ⟨by rw [hc.1.1, h2], by rw [h2]⟩
          · exact Or.inl (by rw [hc.1.1]; exact h2)
      · rw [if_neg hc] at he
        exact hevs e he

/-- All gap-fill events of the whole scan are sound. -/
lemma classifyEvAux_sound (J : ℕ) (P : List (List Bool)) :
    ∀ (rs : List (List Bool)) (y : ℕ) (last : ℕ × ℕ)
      (evs : List (ℕ × ℕ × ℕ)),
      rs = P.drop y →
      lastSeenOK P last →
      (∀ e ∈ evs, eventOK J P e) →
      ∀ e ∈ classifyEvAux J rs y last evs, eventOK J P e := by
  intro rs
  induction rs with
  | nil =>
    intro y last evs _ _ hevs
    exact hevs
  | cons r rs2 ih =>
    intro y last evs hrs hlast hevs
    have hr : P.getD y [] = r := getD_of_drop P y r rs2 [] hrs.symm
    have hrow := classifyRowEv_sound J y P r 0 last evs
      (by rw [hr, List.drop_zero]) hlast hevs
    simp only [classifyEvAux]
    exact ih (y + 1) _ _ (drop_succ_of_drop P y r rs2 hrs.symm).symm
      hrow.2 hrow.1

/-- Every gap-fill event of the classification pass is sound. -/
lemma classifyEvents_sound (J : ℕ) (P : List (List Bool)) :
    ∀ e ∈ classifyEvents J P, eventOK J P e :=
  classifyEvAux_sound J P P 0 (0, 0) [] (List.drop_zero P).symm (Or.inl rfl)
    (by simp)

/-- C3.  Every gap actually filled by the classification pass relabels a
run of `x - a - 1` pixels with `x - a < jump_size`, so the filled run
length is strictly below `jump_size`; equivalently, no gap of length at
least `jump_size` is ever bridged. -/
theorem gapfill_run_length_lt_jump (J : ℕ) (P : List (List Bool)) :
    ∀ e ∈ classifyEvents J P,
      e.2.2 - e.2.1 - 1 < J ∧ ¬(J ≤ e.2.2 - e.2.1 - 1) := by
  intro e he
  obtain ⟨-, hdist, hlen⟩ := classifyEvents_sound J P e he
  constructor
  · omega
  · omega

/-- C3, witness: on the row `[air, tissue, air]` with `jump_size = 15` the
single filled gap relabels one pixel, and `1 < 15`. -/
theorem gapfill_run_length_lt_jump_witness :
    (0, 0, 2) ∈ classifyEvents 15 [[true, false, true]] ∧
    ((0, 0, 2) : ℕ × ℕ × ℕ).2.2 - (0, 0, 2).2.1 - 1 < 15 := by
  refine ⟨by decide, ?_⟩
  exact (gapfill_run_length_lt_jump 15 [[true, false, true]] (0, 0, 2)
    (by decide)).1

/-- C4, amended.  A gap-fill relabeling `(y, a, x)` happens only when the
tracked `last` position lies in the same row `y` at column distance below
`jump_size` — where the tracker starts at the virtual position `(0, 0)`:
the fill start `a` is either a previously seen air pixel of row `y`, or
(in row 0 only) the initial marker `(0, 0)` even though no air pixel has
been seen.  No fill ever crosses a row boundary: the relabeled pixels
`a+1 .. x-1` lie in row `y` itself. -/
theorem gapfill_only_from_tracked_marker (J : ℕ) (P : List (List Bool)) :
    ∀ e ∈ classifyEvents J P,
      ((P.getD e.1 []).getD e.2.1 false = true ∨ (e.1 = 0 ∧ e.2.1 = 0)) ∧
      (e.2.2 : ℤ) - (e.2.1 : ℤ) < (J : ℤ) ∧ e.2.1 + 1 < e.2.2 :=
  classifyEvents_sound J P

/-- C4, witness: the fill event on the grid `[[false, false, true]]` with
`jump_size = 15` starts at the virtual marker position `(0, 0)` of row 0
(the right disjunct), at distance `2 < 15`. -/
theorem gapfill_only_from_tracked_marker_witness :
    (0, 0, 2) ∈ classifyEvents 15 [[false, false, true]] ∧
    ((([[false, false, true]] : List (List Bool)).getD 0 []).getD 0 false =
        true ∨ ((0 : ℕ) = 0 ∧ (0 : ℕ) = 0)) ∧
    ((2 : ℕ) : ℤ) - ((0 : ℕ) : ℤ) < ((15 : ℕ) : ℤ) ∧ (0 : ℕ) + 1 < 2 := by
  refine ⟨by decide, ?_⟩
  exact gapfill_only_from_tracked_marker 15 [[false, false, true]] (0, 0, 2)
    (by decide)

/-! ## Idempotence of the classification pass

The second application of the pass (with the binary Air/Tissue state of the
first application's output as its below-threshold predicate) is shown to
reproduce the first application's output.  The key facts are that the air
set produced by one row scan is "nice": consecutive air runs are separated
by at least `jump_size` columns (otherwise the gap would have been filled),
and in row 0 the first air column is `≤ 1` or `≥ jump_size` (because of the
virtual initial marker at `(0, 0)`).  On a nice row the pass fills nothing,
so it only reproduces its input labels. -/

/-- The labels a gap-fill-free scan assigns to a predicate row. -/
def labelsOf (q : List Bool) : List Label :=
  q.map (fun b => if b then Label.Air else Label.Tissue)

/-- Position `i` of predicate row `q` is air (out of range counts as not). -/
def qAir (q : List Bool) (i : ℕ) : Prop := q.getD i false = true

/-- Position `i` of label row `acc` is `Air` (out of range counts as not). -/
def accAir (acc : List Label) (i : ℕ) : Prop :=
  acc.getD i Label.Tissue = Label.Air

/-- Gap property of an air predicate: consecutive air positions are either
adjacent or at least `J` apart. -/
def gapOKP (J : ℕ) (job : ℕ → Prop) : Prop :=
  ∀ a b : ℕ, a < b → job a → job b → (∀ c, a < c → c < b → ¬ job c) →
    b = a + 1 ∨ a + J ≤ b

/-- Left-margin property of an air predicate (row 0 only): the first air
position is at column `≤ 1` or at column `≥ J`. -/
def leftOKP (J : ℕ) (job : ℕ → Prop) : Prop :=
  ∀ b : ℕ, job b → (∀ c, c < b → ¬ job c) → b ≤ 1 ∨ J ≤ b

/-- `fillAir` preserves the length. -/
lemma fillAir_length (a b : ℕ) :
    ∀ (s : List Label) (i : ℕ), (fillAir a b i s).length = s.length := by
  intro s
  induction s with
  | nil => intro i; rfl
  | cons c r ih => intro i; simp [fillAir, ih]

/-- Pointwise description of `fillAir`. -/
lemma fillAir_getD (a b : ℕ) :
    ∀ (s : List Label) (i0 j : ℕ) (d : Label),
      (fillAir a b i0 s).getD j d =
        if a < i0 + j ∧ i0 + j < b ∧ j < s.length then Label.Air
        else s.getD j d := by
  intro s
  induction s with
  | nil =>
    intro i0 j d
    simp [fillAir]
  | cons c r ih =>
    intro i0 j d
    cases j with
    | zero =>
      by_cases hc : a < i0 ∧ i0 < b
      · simp [fillAir, hc]
      · have : ¬(a < i0 + 0 ∧ i0 + 0 < b ∧ 0 < (c :: r).length) := by
          simp only [Nat.add_zero]
          intro hx
          exact hc ⟨hx.1, hx.2.1⟩
        simp only [fillAir, List.getD_cons_zero, this, if_false]
        by_cases h1 : a < i0 ∧ i0 < b
        · exact absurd h1 hc
        · simp [h1]
    | succ m =>
      simp only [fillAir, List.getD_cons_succ]
      rw [ih (i0 + 1) m d]
      have he : i0 + 1 + m = i0 + (m + 1) := by omega
      by_cases hc : a < i0 + (m + 1) ∧ i0 + (m + 1) < b ∧ m < r.length
      · rw [if_pos (by omega), if_pos (by simp only [List.length_cons]; omega)]
      · rw [if_neg (by omega), if_neg (by simp only [List.length_cons]; omega)]

/-- An empty fill range changes nothing. -/
lemma fillAir_id (a b : ℕ) (hab : b ≤ a + 1) :
    ∀ (s : List Label) (i0 : ℕ), fillAir a b i0 s = s := by
  intro s
  induction s with
  | nil => intro i0; rfl
  | cons c r ih =>
    intro i0
    have : ¬(a < i0 ∧ i0 < b) := by omega
    simp [fillAir, this, ih]

/-- Air positions after appending an `Air` cell. -/
lemma accAir_append_air (acc : List Label) (i : ℕ) :
    accAir (acc ++ [Label.Air]) i ↔ accAir acc i ∨ i = acc.length := by
  unfold accAir
  rcases Nat.lt_trichotomy i acc.length with h | h | h
  · rw [List.getD_append _ _ _ _ h]
    constructor
    · exact Or.inl
    · rintro (h1 | h1)
      · exact h1
      · omega
  · subst h
    rw [List.getD_append_right _ _ _ _ (le_refl _)]
    simp
  · rw [List.getD_append_right _ _ _ _ (le_of_lt h)]
    have h2 : acc.length ≤ i := le_of_lt h
    have h3 : 1 ≤ i - acc.length := by omega
    rw [List.getD_eq_default _ _ (by simpa using h3)]
    constructor
    · intro hx; exact absurd hx (by simp)
    · rintro (h1 | h1)
      · rw [List.getD_eq_default _ _ (by omega)] at h1
        exact absurd h1 (by simp)
      · omega

/-- Air positions after appending a `Tissue` cell. -/
lemma accAir_append_tissue (acc : List Label) (i : ℕ) :
    accAir (acc ++ [Label.Tissue]) i ↔ accAir acc i := by
  unfold accAir
  rcases Nat.lt_trichotomy i acc.length with h | h | h
  · rw [List.getD_append _ _ _ _ h]
  · subst h
    rw [List.getD_append_right _ _ _ _ (le_refl _),
      List.getD_eq_default _ _ (le_refl _)]
    simp
  · rw [List.getD_append_right _ _ _ _ (le_of_lt h)]
    rw [List.getD_eq_default _ _ (by simp; omega),
      List.getD_eq_default _ _ (by omega)]

/-- Air positions after a fill from `d` up to the current column
`x = acc.length` followed by the `Air` cell at `x` itself: the old air
positions plus the half-open run `d < i ≤ x`. -/
lemma accAir_fill_append (acc : List Label) (d : ℕ) (hd : d < acc.length) :
    ∀ i, accAir (fillAir d acc.length 0 acc ++ [Label.Air]) i ↔
      accAir acc i ∨ (d < i ∧ i ≤ acc.length) := by
  intro i
  have hlen : (fillAir d acc.length 0 acc).length = acc.length :=
    fillAir_length d acc.length acc 0
  unfold accAir
  rcases Nat.lt_trichotomy i acc.length with h | h | h
  · rw [List.getD_append _ _ _ _ (by rw [hlen]; exact h)]
    rw [fillAir_getD]
    by_cases hc : d < 0 + i ∧ 0 + i < acc.length ∧ i < acc.length
    · rw [if_pos hc]
      constructor
      · intro _
        exact Or.inr ⟨by omega, by omega⟩
      · intro _
        rfl
    · rw [if_neg hc]
      constructor
      · intro hx
        exact Or.inl hx
      · rintro (hx | hx)
        · exact hx
        · exact absurd ⟨by omega, by omega, h⟩ hc
  · subst h
    rw [List.getD_append_right _ _ _ _ (by rw [hlen])]
    rw [hlen, Nat.sub_self]
    simp only [List.getD_cons_zero]
    constructor
    · intro _
      exact Or.inr ⟨hd, le_refl _⟩
    · intro _
      trivial
  · rw [List.getD_append_right _ _ _ _ (by rw [hlen]; omega)]
    rw [hlen, List.getD_eq_default _ _ (by simp; omega)]
    constructor
    · intro hx
      exact absurd hx (by simp)
    · rintro (hx | hx)
      · rw [List.getD_eq_default _ _ (by omega)] at hx
        exact absurd hx (by simp)
      · omega

/-- Rows holding only `Air`/`Tissue` labels are recovered from their air
mask. -/
lemma labelsOf_airs (out : List Label)
    (h : ∀ l ∈ out, l = Label.Air ∨ l = Label.Tissue) :
    labelsOf (out.map isAir) = out := by
  induction out with
  | nil => rfl
  | cons c r ih =>
    have hc := h c (List.mem_cons_self c r)
    have ih2 := ih (fun l hl => h l (List.mem_cons_of_mem c hl))
    unfold labelsOf at ih2 ⊢
    simp only [List.map_cons, List.cons.injEq]
    refine ⟨?_, ih2⟩
    rcases hc with h1 | h1 <;> simp [h1, isAir]

/-- The air mask of a label row has the same air positions. -/
lemma qAir_airs (out : List Label) (i : ℕ) :
    qAir (out.map isAir) i ↔ accAir out i := by
  unfold qAir accAir
  rw [List.getD_eq_getElem?_getD, List.getElem?_map, List.getD_eq_getElem?_getD]
  cases h : out[i]? with
  | none => simp
  | some l =>
    simp only [Option.map_some, Option.getD_some]
    cases l <;> simp [isAir]

/-- Out-of-range positions are never air. -/
lemma accAir_oob (acc : List Label) (i : ℕ) (h : acc.length ≤ i) :
    ¬ accAir acc i := by
  unfold accAir
  rw [List.getD_eq_default _ _ h]
  simp

/-- Gap property transports along pointwise equivalence. -/
lemma gapOKP_congr (J : ℕ) (job job2 : ℕ → Prop)
    (hchar : ∀ i, job2 i ↔ job i) (h : gapOKP J job) : gapOKP J job2 := by
  intro a b hab ha hb hno
  exact h a b hab ((hchar a).1 ha) ((hchar b).1 hb)
    (fun c h1 h2 hc => hno c h1 h2 ((hchar c).2 hc))

/-- Left-margin property transports along pointwise equivalence. -/
lemma leftOKP_congr (J : ℕ) (job job2 : ℕ → Prop)
    (hchar : ∀ i, job2 i ↔ job i) (h : leftOKP J job) : leftOKP J job2 := by
  intro b hb hno
  exact h b ((hchar b).1 hb) (fun c h1 hc => hno c h1 ((hchar c).2 hc))

/-- A single air position has the gap property. -/
lemma gapOKP_singleton (J x : ℕ) (job2 : ℕ → Prop)
    (hchar : ∀ i, job2 i ↔ i = x) : gapOKP J job2 := by
  intro a b hab ha hb _
  rw [hchar a] at ha
  rw [hchar b] at hb
  omega

/-- A single air position at column `≤ 1` or `≥ J` has the left-margin
property. -/
lemma leftOKP_singleton (J x : ℕ) (hx : x ≤ 1 ∨ J ≤ x) (job2 : ℕ → Prop)
    (hchar : ∀ i, job2 i ↔ i = x) : leftOKP J job2 := by
  intro b hb _
  rw [hchar b] at hb
  omega

/-- A run `1 .. x` (or `{0}` for `x = 0`) has the gap property. -/
lemma gapOKP_initial_run (J x : ℕ) (job2 : ℕ → Prop)
    (hchar : ∀ i, job2 i ↔ (0 < i ∧ i ≤ x)) : gapOKP J job2 := by
  intro a b hab ha hb hno
  rw [hchar a] at ha
  rw [hchar b] at hb
  left
  by_contra hne
  exact hno (a + 1) (by omega) (by omega) ((hchar (a + 1)).2 (by omega))

/-- A run `1 .. x` starts at column 1, satisfying the left-margin
property. -/
lemma leftOKP_initial_run (J x : ℕ) (job2 : ℕ → Prop)
    (hchar : ∀ i, job2 i ↔ (0 < i ∧ i ≤ x)) : leftOKP J job2 := by
  intro b hb hno
  rw [hchar b] at hb
  left
  by_contra hne
  exact hno 1 (by omega) ((hchar 1).2 (by omega))

/-- Extending the air set by the contiguous run `d+1 .. x` attached at the
tracked air position `d` (all positions beyond `d` were non-air) preserves
the gap property. -/
lemma gapOKP_ext_run (J d x : ℕ) (job job2 : ℕ → Prop)
    (hchar : ∀ i, job2 i ↔ job i ∨ (d < i ∧ i ≤ x))
    (hgap : gapOKP J job) (htrail : ∀ i, d < i → ¬ job i) (hdx : d < x)
    (hjd : job d) :
    gapOKP J job2 := by
  intro a b hab ha hb hno
  rw [hchar a] at ha
  rw [hchar b] at hb
  rcases hb with hb | hb
  · -- b is an old air position, hence b ≤ d, hence a < b ≤ d: all old
    have hbd : b ≤ d := by
      by_contra hx
      exact htrail b (by omega) hb
    have ha2 : job a := by
      rcases ha with h1 | h1
      · exact h1
      · omega
    exact hgap a b hab ha2 hb
      (fun c h1 h2 => fun hc => hno c h1 h2 ((hchar c).2 (Or.inl hc)))
  · -- b lies in the new run d+1 .. x
    rcases ha with ha | ha
    · have had : a ≤ d := by
        by_contra hx
        exact htrail a (by omega) ha
      rcases Nat.lt_or_ge a d with h1 | h1
      · -- d lies strictly between a and b and is air: contradicts hno
        exact absurd ((hchar d).2 (Or.inl hjd)) (hno d h1 (by omega))
      · -- a = d: adjacency or contradiction via d+1
        have haeq : a = d := by omega
        subst haeq
        left
        by_contra hne
        exact hno (a + 1) (by omega) (by omega)
          ((hchar (a + 1)).2 (Or.inr (by omega)))
    · -- both in the new run: contiguous
      left
      by_contra hne
      exact hno (a + 1) (by omega) (by omega)
        ((hchar (a + 1)).2 (Or.inr (by omega)))

/-- Extending the air set by the contiguous run `d+1 .. x` preserves the
left-margin property: the first air position is unchanged. -/
lemma leftOKP_ext_run (J d x : ℕ) (job job2 : ℕ → Prop)
    (hchar : ∀ i, job2 i ↔ job i ∨ (d < i ∧ i ≤ x))
    (hleft : leftOKP J job) (hjd : job d) : leftOKP J job2 := by
  intro b hb hno
  rcases Nat.lt_or_ge d b with h1 | h1
  · exact absurd ((hchar d).2 (Or.inl hjd)) (hno d h1)
  · rw [hchar b] at hb
    rcases hb with hb | hb
    · exact hleft b hb (fun c hc hjc => hno c hc ((hchar c).2 (Or.inl hjc)))
    · omega

/-- Adding a single distant air position (at distance at least `J` past the
tracked air position `d`, everything beyond `d` previously non-air)
preserves the gap property. -/
lemma gapOKP_ext_far (J d x : ℕ) (job job2 : ℕ → Prop)
    (hchar : ∀ i, job2 i ↔ job i ∨ i = x)
    (hgap : gapOKP J job) (htrail : ∀ i, d < i → ¬ job i)
    (hjd : job d) (hfar : d + J ≤ x) (hdx : d < x) : gapOKP J job2 := by
  intro a b hab ha hb hno
  rw [hchar a] at ha
  rw [hchar b] at hb
  rcases hb with hb | hb
  · have hbd : b ≤ d := by
      by_contra hx
      exact htrail b (by omega) hb
    have ha2 : job a := by
      rcases ha with h1 | h1
      · exact h1
      · omega
    exact hgap a b hab ha2 hb
      (fun c h1 h2 hc => hno c h1 h2 ((hchar c).2 (Or.inl hc)))
  · subst hb
    have ha2 : job a := by
      rcases ha with h1 | h1
      · exact h1
      · omega
    have had : a ≤ d := by
      by_contra hx
      exact htrail a (by omega) ha2
    rcases Nat.lt_or_ge a d with h1 | h1
    · exact absurd ((hchar d).2 (Or.inl hjd)) (hno d h1 (by omega))
    · right
      omega

/-- Adding a single air position past an existing one preserves the
left-margin property. -/
lemma leftOKP_ext (J x : ℕ) (job job2 : ℕ → Prop)
    (hchar : ∀ i, job2 i ↔ job i ∨ i = x)
    (hleft : leftOKP J job) (hex : ∃ d, job d ∧ d < x) : leftOKP J job2 := by
  intro b hb hno
  obtain ⟨d, hjd, hdx⟩ := hex
  rw [hchar b] at hb
  rcases hb with hb | hb
  · exact hleft b hb (fun c hc hjc => hno c hc ((hchar c).2 (Or.inl hjc)))
  · subst hb
    exact absurd ((hchar d).2 (Or.inl hjd)) (hno d hdx)

/-- Main invariant of one row scan: the air set of the produced labels has
the gap property (runs at least `J` apart), and — when the row is row 0
entered with the virtual marker `(0, 0)` — also the left-margin property.
The state invariant distinguishes "no air seen yet in this row" (`last`
still the entry value) from "last air seen at column `last.1`" (with no
air beyond it). -/
lemma classifyRowAux_nice (J y : ℕ) (entry : ℕ × ℕ)
    (hentry : (y = 0 ∧ entry = (0, 0)) ∨ entry.2 ≠ y) :
    ∀ (s : List Bool) (x : ℕ) (last : ℕ × ℕ) (acc : List Label),
      acc.length = x →
      gapOKP J (accAir acc) →
      ((y = 0 ∧ entry = (0, 0)) → leftOKP J (accAir acc)) →
      ((last = entry ∧ ∀ i, ¬ accAir acc i) ∨
        (last.2 = y ∧ accAir acc last.1 ∧ last.1 < x ∧
          ∀ i, last.1 < i → ¬ accAir acc i)) →
      gapOKP J (accAir (classifyRowAux J y s x last acc).1) ∧
      ((y = 0 ∧ entry = (0, 0)) →
        leftOKP J (accAir (classifyRowAux J y s x last acc).1)) := by
  intro s
  induction s with
  | nil =>
    intro x last acc _ hgap hleft _
    exact ⟨hgap, hleft⟩
  | cons b s2 ih =>
    intro x last acc hlen hgap hleft hstate
    cases b with
    | false =>
      simp only [classifyRowAux, Bool.false_eq_true, if_false]
      refine ih (x + 1) last (acc ++ [Label.Tissue]) (by simp [hlen]) ?_ ?_ ?_
      · exact gapOKP_congr J _ _ (accAir_append_tissue acc) hgap
      · exact fun hv => leftOKP_congr J _ _ (accAir_append_tissue acc)
          (hleft hv)
      · rcases hstate with ⟨hle, hno⟩ | ⟨hl2, hair, hlt, htrail⟩
        · exact Or.inl ⟨hle, fun i =>
            fun hx => hno i ((accAir_append_tissue acc i).1 hx)⟩
        · exact Or.inr ⟨hl2, (accAir_append_tissue acc last.1).2 hair,
            by omega, fun i hi =>
              fun hx => htrail i hi ((accAir_append_tissue acc i).1 hx)⟩
    | true =>
      simp only [classifyRowAux, if_true]
      by_cases hc : y = last.2 ∧ (x : ℤ) - (last.1 : ℤ) < (J : ℤ)
      · rw [if_pos hc]
        rcases hstate with ⟨hle, hno⟩ | ⟨hl2, hair, hlt, htrail⟩
        · -- no air seen yet and the fill condition holds: the entry marker
          -- must be the virtual (0, 0) of row 0
          have hvirt : y = 0 ∧ entry = (0, 0) := by
            rcases hentry with hv | hne2
            · exact hv
            · exact absurd (hle ▸ hc.1.symm) hne2
          have hl1 : last.1 = 0 := by rw [hle, hvirt.2]
          have hxJ : x < J := by
            have := hc.2
            omega
          rcases Nat.eq_zero_or_pos x with hx0 | hxpos
          · -- first column: the fill range is empty
            have hacc : acc = [] := List.length_eq_zero.1 (by omega)
            subst hacc
            have hfill : fillAir last.1 x 0 ([] : List Label) = [] := rfl
            rw [hfill]
            have char2 : ∀ i, accAir ([] ++ [Label.Air]) i ↔ i = 0 := by
              intro i
              rw [accAir_append_air]
              simp only [List.length_nil]
              constructor
              · rintro (h1 | h1)
                · exact absurd h1 (accAir_oob [] i (by simp))
                · exact h1
              · exact Or.inr
            refine ih (x + 1) (x, y) _ (by simp; omega) ?_ ?_ ?_
            · exact gapOKP_singleton J 0 _ char2
            · exact fun _ => leftOKP_singleton J 0 (Or.inl (by omega)) _ char2
            · refine Or.inr ⟨rfl, ?_, by omega, ?_⟩
              · exact (char2 x).2 (by omega)
              · intro i hi hx
                rw [char2 i] at hx
                omega
          · -- the fill produces the initial run 1 .. x
            have hd0 : (0 : ℕ) < acc.length := by omega
            have hform : fillAir last.1 x 0 acc =
                fillAir 0 acc.length 0 acc := by rw [hl1, hlen]
            rw [hform]
            have char2 : ∀ i,
                accAir (fillAir 0 acc.length 0 acc ++ [Label.Air]) i ↔
                  (0 < i ∧ i ≤ x) := by
              intro i
              rw [accAir_fill_append acc 0 hd0 i]
              constructor
              · rintro (h1 | h1)
                · exact absurd h1 (hno i)
                · omega
              · intro h1
                exact Or.inr ⟨h1.1, by omega⟩
            refine ih (x + 1) (x, y) _ ?_ ?_ ?_ ?_
            · rw [List.length_append, fillAir_length]
              simp [hlen]
            · exact gapOKP_initial_run J x _ char2
            · exact fun _ => leftOKP_initial_run J x _ char2
            · refine Or.inr ⟨rfl, (char2 x).2 ⟨hxpos, le_refl x⟩, by omega,
                ?_⟩
              intro i hi hx
              rw [char2 i] at hx
              omega
        · -- air already seen at last.1: fill the gap up to x
          have hd : last.1 < acc.length := by omega
          have hform : fillAir last.1 x 0 acc =
              fillAir last.1 acc.length 0 acc := by rw [hlen]
          rw [hform]
          have char2 : ∀ i,
              accAir (fillAir last.1 acc.length 0 acc ++ [Label.Air]) i ↔
                accAir acc i ∨ (last.1 < i ∧ i ≤ x) := by
            intro i
            rw [accAir_fill_append acc last.1 hd i, hlen]
          refine ih (x + 1) (x, y) _ ?_ ?_ ?_ ?_
          · rw [List.length_append, fillAir_length]
            simp [hlen]
          · exact gapOKP_ext_run J last.1 x _ _ char2 hgap htrail hlt hair
          · exact fun hv => leftOKP_ext_run J last.1 x _ _ char2 (hleft hv)
              hair
          · refine Or.inr ⟨rfl, (char2 x).2 (Or.inr ⟨hlt, le_refl x⟩),
              by omega, ?_⟩
            intro i hi hx
            rw [char2 i] at hx
            rcases hx with hx | hx
            · exact accAir_oob acc i (by omega) hx
            · omega
      · rw [if_neg hc]
        have char2 : ∀ i, accAir (acc ++ [Label.Air]) i ↔
            accAir acc i ∨ i = x := by
          intro i
          rw [accAir_append_air, hlen]
        rcases hstate with ⟨hle, hno⟩ | ⟨hl2, hair, hlt, htrail⟩
        · -- no air seen yet, no fill: a single air position at x
          have char3 : ∀ i, accAir (acc ++ [Label.Air]) i ↔ i = x := by
            intro i
            rw [char2 i]
            constructor
            · rintro (h1 | h1)
              · exact absurd h1 (hno i)
              · exact h1
            · exact Or.inr
          refine ih (x + 1) (x, y) _ (by simp [hlen]) ?_ ?_ ?_
          · exact gapOKP_singleton J x _ char3
          · intro hv
            refine leftOKP_singleton J x ?_ _ char3
            -- the fill condition failed although y = 0 and last = (0,0):
            -- so J ≤ x
            have hl0 : last = (0, 0) := by rw [hle, hv.2]
            have : ¬((x : ℤ) - (last.1 : ℤ) < (J : ℤ)) := by
              intro hd
              exact hc ⟨by rw [hl0, hv.1], hd⟩
            right
            rw [hl0] at this
            simp only at this
            omega
          · refine Or.inr ⟨rfl, (char3 x).2 rfl, by omega, ?_⟩
            intro i hi hx
            rw [char3 i] at hx
            omega
        · -- air seen at last.1, the gap is at least J: single far position
          have hfar : last.1 + J ≤ x := by
            have : ¬((x : ℤ) - (last.1 : ℤ) < (J : ℤ)) := by
              intro hd
              exact hc ⟨hl2.symm, hd⟩
            omega
          refine ih (x + 1) (x, y) _ (by simp [hlen]) ?_ ?_ ?_
          · exact gapOKP_ext_far J last.1 x _ _ char2 hgap htrail hair hfar
              hlt
          · exact fun hv => leftOKP_ext J x _ _ char2 (hleft hv)
              ⟨last.1, hair, hlt⟩
          · refine Or.inr ⟨rfl, (char2 x).2 (Or.inr rfl), by omega, ?_⟩
            intro i hi hx
            rw [char2 i] at hx
            rcases hx with hx | hx
            · exact accAir_oob acc i (by omega) hx
            · omega

/-- On a predicate row with the gap property (and, for row 0, the
left-margin property), the scan never fills anything: every fill range it
attempts is empty, so it simply relabels each position by its own
predicate value. -/
lemma classifyRowAux_fixed (J y : ℕ) (q : List Bool)
    (hgap : gapOKP J (qAir q)) :
    ∀ (s : List Bool) (x : ℕ) (last : ℕ × ℕ) (acc : List Label),
      s = q.drop x →
      acc = labelsOf (q.take x) →
      (((∀ i, i < x → ¬ qAir q i) ∧
        ((y = 0 ∧ last = (0, 0) ∧ leftOKP J (qAir q)) ∨ last.2 ≠ y)) ∨
      (∃ d, last = (d, y) ∧ qAir q d ∧ d < x ∧
        ∀ i, d < i → i < x → ¬ qAir q i)) →
      (classifyRowAux J y s x last acc).1 = labelsOf q := by
  intro s
  induction s with
  | nil =>
    intro x last acc hs hacc _
    have hxlen : q.length ≤ x := List.drop_eq_nil_iff.1 hs.symm
    rw [List.take_of_length_le hxlen] at hacc
    exact hacc
  | cons b s2 ih =>
    intro x last acc hs hacc hstate
    have hb : q.getD x false = b := getD_of_drop q x b s2 false hs.symm
    have hs2 : s2 = q.drop (x + 1) :=
      (drop_succ_of_drop q x b s2 hs.symm).symm
    have hxlen : x < q.length := by
      by_contra hxx
      rw [List.drop_eq_nil_of_le (by omega)] at hs
      exact List.cons_ne_nil b s2 hs
    have hqx : q[x]? = some b := by
      rw [List.getElem?_eq_getElem hxlen]
      rw [List.getD_eq_getElem?_getD, List.getElem?_eq_getElem hxlen] at hb
      simpa using hb
    have htake : q.take (x + 1) = q.take x ++ [b] := by
      rw [List.take_succ, hqx]
      rfl
    have hacc2 : ∀ (l : Label), (l = if b then Label.Air else Label.Tissue) →
        acc ++ [l] = labelsOf (q.take (x + 1)) := by
      intro l hl
      rw [htake, hacc]
      unfold labelsOf
      rw [List.map_append]
      simp [hl]
    cases b with
    | false =>
      simp only [classifyRowAux, Bool.false_eq_true, if_false]
      have hnx : ¬ qAir q x := by
        unfold qAir
        rw [hb]
        simp
      refine ih (x + 1) last (acc ++ [Label.Tissue]) hs2
        (hacc2 _ (by simp)) ?_
      rcases hstate with ⟨hno, hd⟩ | ⟨d, hld, hqd, hdx, htrail⟩
      · refine Or.inl ⟨?_, hd⟩
        intro i hi
        rcases Nat.lt_or_ge i x with h1 | h1
        · exact hno i h1
        · have : i = x := by omega
          rw [this]
          exact hnx
      · refine Or.inr ⟨d, hld, hqd, by omega, ?_⟩
        intro i h1 h2
        rcases Nat.lt_or_ge i x with h3 | h3
        · exact htrail i h1 h3
        · have : i = x := by omega
          rw [this]
          exact hnx
    | true =>
      simp only [classifyRowAux, if_true]
      have hqxair : qAir q x := by
        unfold qAir
        rw [hb]
      have hnext : ((∀ i, i < x + 1 → ¬ qAir q i) ∧
          ((y = 0 ∧ ((x, y) : ℕ × ℕ) = (0, 0) ∧ leftOKP J (qAir q)) ∨
            ((x, y) : ℕ × ℕ).2 ≠ y)) ∨
          (∃ d, ((x, y) : ℕ × ℕ) = (d, y) ∧ qAir q d ∧ d < x + 1 ∧
            ∀ i, d < i → i < x + 1 → ¬ qAir q i) :=
        Or.inr ⟨x, rfl, hqxair, by omega, fun i h1 h2 => by omega⟩
      by_cases hc : y = last.2 ∧ (x : ℤ) - (last.1 : ℤ) < (J : ℤ)
      · rw [if_pos hc]
        have hfid : fillAir last.1 x 0 acc = acc := by
          rcases hstate with ⟨hno, hd⟩ | ⟨d, hld, hqd, hdx, htrail⟩
          · rcases hd with ⟨hy0, hl0, hleft⟩ | hne2
            · -- virtual marker: the left-margin property bounds x
              have hl1 : last.1 = 0 := by rw [hl0]
              have hxJ : x < J := by
                have := hc.2
                omega
              have hx1 : x ≤ 1 := by
                rcases hleft x hqxair (fun c hcx => hno c hcx) with h1 | h1
                · exact h1
                · omega
              exact fillAir_id last.1 x (by omega) acc 0
            · exact absurd hc.1.symm hne2
          · -- tracked air at d: the gap property forces adjacency
            have hld1 : last.1 = d := by rw [hld]
            have hxd : x < d + J := by
              have := hc.2
              omega
            rcases hgap d x hdx hqd hqxair htrail with h1 | h1
            · exact fillAir_id last.1 x (by omega) acc 0
            · omega
        rw [hfid]
        exact ih (x + 1) (x, y) (acc ++ [Label.Air]) hs2
          (hacc2 _ (by simp)) hnext
      · rw [if_neg hc]
        exact ih (x + 1) (x, y) (acc ++ [Label.Air]) hs2
          (hacc2 _ (by simp)) hnext

/-- The row index stored in the `last` marker never exceeds the rows
scanned so far. -/
lemma classifyRowAux_last_le (J y : ℕ) :
    ∀ (s : List Bool) (x : ℕ) (last : ℕ × ℕ) (acc : List Label),
      last.2 ≤ y → (classifyRowAux J y s x last acc).2.2 ≤ y := by
  intro s
  induction s with
  | nil => intro x last acc h; exact h
  | cons b s2 ih =>
    intro x last acc h
    cases b with
    | false =>
      simp only [classifyRowAux, Bool.false_eq_true, if_false]
      exact ih (x + 1) last _ h
    | true =>
      simp only [classifyRowAux, if_true]
      exact ih (x + 1) (x, y) _ (le_refl y)

/-- Scanning the air masks of already-classified rows from any valid
marker state reproduces the classified rows. -/
lemma classifyRowsAux_pair (J : ℕ) :
    ∀ (rs : List (List Bool)) (y : ℕ) (last1 last2 : ℕ × ℕ),
      ((y = 0 ∧ last1 = (0, 0) ∧ last2 = (0, 0)) ∨
        (last1.2 < y ∧ last2.2 < y)) →
      classifyRowsAux J
          ((classifyRowsAux J rs y last1).map (List.map isAir)) y last2 =
        classifyRowsAux J rs y last1 := by
  intro rs
  induction rs with
  | nil => intro y last1 last2 _; rfl
  | cons r rs2 ih =>
    intro y last1 last2 hpair
    simp only [classifyRowsAux, List.map_cons]
    have hout1mem : ∀ l ∈ (classifyRowAux J y r 0 last1 []).1,
        l = Label.Air ∨ l = Label.Tissue :=
      classifyRowAux_mem J y r 0 last1 [] (by simp)
    have hentry : (y = 0 ∧ last1 = (0, 0)) ∨ last1.2 ≠ y := by
      rcases hpair with ⟨h1, h2, _⟩ | ⟨h1, _⟩
      · exact Or.inl ⟨h1, h2⟩
      · exact Or.inr (by omega)
    have hnice := classifyRowAux_nice J y last1 hentry r 0 last1 [] rfl
      (fun a b hab ha _ _ => absurd ha (accAir_oob [] a (by simp)))
      (fun _ b hb _ => absurd hb (accAir_oob [] b (by simp)))
      (Or.inl ⟨rfl, fun i => accAir_oob [] i (by simp)⟩)
    set out1 := (classifyRowAux J y r 0 last1 []).1 with hout1
    have hgapq : gapOKP J (qAir (out1.map isAir)) :=
      gapOKP_congr J _ _ (qAir_airs out1) hnice.1
    have hfix : (classifyRowAux J y (out1.map isAir) 0 last2 []).1 =
        labelsOf (out1.map isAir) := by
      refine classifyRowAux_fixed J y (out1.map isAir) hgapq
        (out1.map isAir) 0 last2 [] (List.drop_zero _).symm rfl ?_
      refine Or.inl ⟨fun i hi => absurd hi (by omega), ?_⟩
      rcases hpair with ⟨h1, h2, h3⟩ | ⟨_, h2⟩
      · exact Or.inl ⟨h1, h3,
          leftOKP_congr J _ _ (qAir_airs out1) (hnice.2 ⟨h1, h2⟩)⟩
      · exact Or.inr (by omega)
    have hhead : (classifyRowAux J y (out1.map isAir) 0 last2 []).1 =
        out1 := by
      rw [hfix, labelsOf_airs out1 hout1mem]
    rw [hhead]
    have hlast1 : (classifyRowAux J y r 0 last1 []).2.2 ≤ y := by
      refine classifyRowAux_last_le J y r 0 last1 [] ?_
      rcases hpair with ⟨h1, h2, _⟩ | ⟨h1, _⟩
      · rw [h2, h1]
      · omega
    have hlast2 : (classifyRowAux J y (out1.map isAir) 0 last2 []).2.2 ≤
        y := by
      refine classifyRowAux_last_le J y _ 0 last2 [] ?_
      rcases hpair with ⟨h1, _, h3⟩ | ⟨_, h3⟩
      · rw [h3, h1]
      · omega
    rw [ih (y + 1) (classifyRowAux J y r 0 last1 []).2
      (classifyRowAux J y (out1.map isAir) 0 last2 []).2
      (Or.inr ⟨by omega, by omega⟩)]

/-- C9.  The classification pass is idempotent on its own output: running
it again on the binary Air/Tissue state of its result (the air mask used
as the below/above-threshold predicate) reproduces exactly the same label
assignment, for every grid and every `jump_size`. -/
theorem classify_idempotent (J : ℕ) (P : List (List Bool)) :
    classify J (airsGrid (classify J P)) = classify J P := by
  unfold classify airsGrid
  exact classifyRowsAux_pair J P 0 (0, 0) (0, 0) (Or.inl ⟨rfl, rfl, rfl⟩)
